import Mathlib

/-!
Shallow embedding of the auctions-api-go domain core.

Modelling conventions:
* Go `string` is embedded as `List Char` (`GoString`); Go string equality is
  list equality.
* `time.Time` and `time.Duration` are embedded as `Int` (an instant in
  nanoseconds); `t.After u` is `u < t`, `t.Before u` is `t < u`,
  `t.Equal u` is `t = u`, `t.Add d` is `t + d`.
* `int64` is embedded as `Int`; the only place where the 64-bit range is
  observable to the claims is `strconv.ParseInt`, whose range check is
  embedded explicitly.
* Go's `(value, error)` returns are embedded as `value × Option DomainError`
  (`none` = nil error) or as `Option value` for parsers.
* The repository `map[AuctionId]entry` is embedded as an association list
  with key-overwriting `store`; `map[UserId]Bid` inside the sealed-bid state
  likewise.  Go map iteration order is unspecified; the embedding iterates
  association lists in insertion order (a documented model choice, per the
  spec's recommendation of stable insertion order).
* The source contains both an `Amount`-carrying bid record and an
  `int64`-carrying bid record (the spec flags this and fixes the bid record
  amount as a bare integer, with the currency inherited from the enclosing
  auction).  The embedding follows that resolution: `Bid.Amount : Int`, and
  the sealed-bid code's `bid.Amount.Value` reads are embedded as
  `bid.Amount`.  The standalone `Amount` value object (currency, value) is
  embedded separately for the codec layer.
-/

abbrev GoString := List Char
abbrev UserId := GoString
abbrev AuctionId := Int
abbrev CurrencyCode := GoString
abbrev GoTime := Int
abbrev GoDuration := Int

/-- `time.Second` in the nanosecond embedding of durations. -/
def goSecond : GoDuration := 1000000000

/-- `domain.User` from core.go: `ID`, `Name`, and a `Type` tag that is
`"BuyerOrSeller"` or `"Support"` (the Go field `Type` is renamed `Typ`
because `Type` is a Lean keyword). -/
structure User where
  ID : UserId
  Name : GoString
  Typ : GoString
deriving DecidableEq

/-- `domain.NewBuyerOrSeller` from core.go. -/
def NewBuyerOrSeller (id : UserId) (name : GoString) : User :=
  { ID := id, Name := name, Typ := "BuyerOrSeller".toList }

/-- `domain.NewSupport` from core.go.  The Go zero value of `Name` is `""`. -/
def NewSupport (id : UserId) : User :=
  { ID := id, Name := [], Typ := "Support".toList }

/-- The closed set of domain errors from core.go, each constructor carrying
the `Data` payload its `New...Error` function stores. -/
inductive DomainError where
  | UnknownAuction (id : AuctionId)
  | AuctionAlreadyExists (id : AuctionId)
  | AuctionHasEnded (id : AuctionId)
  | AuctionHasNotStarted (id : AuctionId)
  | SellerCannotPlaceBids (userId : UserId) (auctionId : AuctionId)
  | InvalidUserData (message : GoString)
  | MustPlaceBidOverHighest (amount : Int)
  | AlreadyPlacedBid
deriving DecidableEq

/-- `domain.Bid` (the integer-amount bid record of bid.go / part_002,
matching the arithmetic in timed-ascending.go). -/
structure Bid where
  ForAuction : AuctionId
  Bidder : User
  At : GoTime
  Amount : Int
deriving DecidableEq

instance : Inhabited User := ⟨⟨[], [], []⟩⟩

instance : Inhabited Bid := ⟨⟨0, ⟨[], [], []⟩, 0, 0⟩⟩

/-- `domain.TimedAscendingOptions` from timed-ascending.go. -/
structure TimedAscendingOptions where
  ReservePrice : Int
  MinRaise : Int
  TimeFrame : GoDuration
deriving DecidableEq

/-- `domain.DefaultTimedAscendingOptions` from timed-ascending.go. -/
def DefaultTimedAscendingOptions : TimedAscendingOptions :=
  { ReservePrice := 0, MinRaise := 0, TimeFrame := 0 }

/-- The three `TimedAscendingState` implementations from timed-ascending.go,
as one tagged union: `AwaitingStartState`, `OngoingState`, `EndedState`. -/
inductive TimedAscendingState where
  | AwaitingStartState (start startingExpiry : GoTime) (options : TimedAscendingOptions)
  | OngoingState (bids : List Bid) (nextExpiry : GoTime) (options : TimedAscendingOptions)
  | EndedState (bids : List Bid) (expiry : GoTime) (options : TimedAscendingOptions)
deriving DecidableEq

/-- `domain.NewTimedAscendingState` from timed-ascending.go. -/
def NewTimedAscendingState (start expiry : GoTime) (options : TimedAscendingOptions) :
    TimedAscendingState :=
  .AwaitingStartState start expiry options

/-- The three `Increment` methods of timed-ascending.go.
`AwaitingStartState`: `now.After(start)` then `now.Before(startingExpiry)`
chooses between `OngoingState` and `EndedState`, else the state is kept.
`OngoingState`: ends when `now.After(nextExpiry) || now.Equal(nextExpiry)`.
`EndedState`: never changes. -/
def TimedAscendingState.Increment : TimedAscendingState → GoTime → TimedAscendingState
  | .AwaitingStartState start startingExpiry options, now =>
      if start < now then
        if now < startingExpiry then
          .OngoingState [] startingExpiry options
        else
          .EndedState [] startingExpiry options
      else
        .AwaitingStartState start startingExpiry options
  | .OngoingState bids nextExpiry options, now =>
      if nextExpiry ≤ now then
        .EndedState bids nextExpiry options
      else
        .OngoingState bids nextExpiry options
  | .EndedState bids expiry options, _ => .EndedState bids expiry options

/-- `OngoingState.AddBid` from timed-ascending.go (also reached from
`AwaitingStartState.AddBid` by delegation after `Increment`): refresh via
`Increment(bid.At)`; if ended, fail `AuctionHasEnded` returning the ended
state; otherwise extend `newExpiry` to `bid.At + TimeFrame` when that is
later, accept a first bid unconditionally, and otherwise accept exactly when
`bid.Amount >= highest + MinRaise`, failing `MustPlaceBidOverHighest` and
keeping the receiver state otherwise. -/
def TimedAscendingState.ongoingAddBid (bids : List Bid) (nextExpiry : GoTime)
    (options : TimedAscendingOptions) (bid : Bid) :
    TimedAscendingState × Option DomainError :=
  let now := bid.At
  if nextExpiry ≤ now then
    (.EndedState bids nextExpiry options, some (.AuctionHasEnded bid.ForAuction))
  else
    let newExpiry := if nextExpiry < now + options.TimeFrame then now + options.TimeFrame
      else nextExpiry
    match bids with
    | [] => (.OngoingState [bid] newExpiry options, none)
    | highestBid :: rest =>
        if highestBid.Amount + options.MinRaise ≤ bid.Amount then
          (.OngoingState (bid :: highestBid :: rest) newExpiry options, none)
        else
          (.OngoingState (highestBid :: rest) nextExpiry options,
            some (.MustPlaceBidOverHighest highestBid.Amount))

/-- The three `AddBid` methods of timed-ascending.go.
`AwaitingStartState.AddBid` refreshes via `Increment(bid.At)`, fails
`AuctionHasNotStarted` if still awaiting and otherwise delegates to the new
state's `AddBid`; `EndedState.AddBid` always fails `AuctionHasEnded`. -/
def TimedAscendingState.AddBid (s : TimedAscendingState) (bid : Bid) :
    TimedAscendingState × Option DomainError :=
  match s with
  | .AwaitingStartState start startingExpiry options =>
      match (TimedAscendingState.AwaitingStartState start startingExpiry options).Increment
        bid.At with
      | .AwaitingStartState a e o =>
          (.AwaitingStartState a e o, some (.AuctionHasNotStarted bid.ForAuction))
      | .OngoingState bids nextExpiry o =>
          TimedAscendingState.ongoingAddBid bids nextExpiry o bid
      | .EndedState bids expiry o =>
          (.EndedState bids expiry o, some (.AuctionHasEnded bid.ForAuction))
  | .OngoingState bids nextExpiry options =>
      TimedAscendingState.ongoingAddBid bids nextExpiry options bid
  | .EndedState bids expiry options =>
      (.EndedState bids expiry options, some (.AuctionHasEnded bid.ForAuction))

/-- The three `GetBids` methods of timed-ascending.go. -/
def TimedAscendingState.GetBids : TimedAscendingState → List Bid
  | .AwaitingStartState _ _ _ => []
  | .OngoingState bids _ _ => bids
  | .EndedState bids _ _ => bids

/-- The three `TryGetAmountAndWinner` methods of timed-ascending.go; the Go
zero results `(0, "", false)` become `(0, [], false)`.  `EndedState` pays
the head bid when it strictly exceeds the reserve price. -/
def TimedAscendingState.TryGetAmountAndWinner :
    TimedAscendingState → Int × UserId × Bool
  | .EndedState bids _ options =>
      match bids with
      | [] => (0, [], false)
      | highestBid :: _ =>
          if options.ReservePrice < highestBid.Amount then
            (highestBid.Amount, highestBid.Bidder.ID, true)
          else
            (0, [], false)
  | _ => (0, [], false)

/-- The three `HasEnded` methods of timed-ascending.go. -/
def TimedAscendingState.HasEnded : TimedAscendingState → Bool
  | .EndedState _ _ _ => true
  | _ => false

/-- `domain.SealedBidOptions` from the sealed-bid file: a Go string type. -/
abbrev SealedBidOptions := GoString

/-- The `Blind` constant. -/
def Blind : SealedBidOptions := "Blind".toList

/-- The `Vickrey` constant. -/
def Vickrey : SealedBidOptions := "Vickrey".toList

/-- `domain.SealedBidState` from the sealed-bid file; the Go map
`map[UserId]Bid` becomes an association list kept in insertion order. -/
structure SealedBidState where
  bids : List (UserId × Bid)
  bidsList : List Bid
  disclosing : Bool
  expiry : GoTime
  options : SealedBidOptions
deriving DecidableEq

/-- `domain.NewSealedBidState` from the sealed-bid file. -/
def NewSealedBidState (expiry : GoTime) (options : SealedBidOptions) : SealedBidState :=
  { bids := [], bidsList := [], disclosing := false, expiry := expiry, options := options }

/-- Insertion sort of bids by amount in descending order: the embedding of
`sort.Slice(bids, func(i, j) { return bids[i].Amount.Value > bids[j].Amount.Value })`.
Go's sort is unstable and the map iteration feeding it is unordered; the
embedding fixes the deterministic order the spec recommends. -/
def insertBidDesc (b : Bid) : List Bid → List Bid
  | [] => [b]
  | c :: rest => if c.Amount < b.Amount then b :: c :: rest else c :: insertBidDesc b rest

/-- Sort a bid list by amount, highest first. -/
def sortBidsDesc : List Bid → List Bid
  | [] => []
  | b :: rest => insertBidDesc b (sortBidsDesc rest)

/-- `SealedBidState.Increment` from the sealed-bid file: a disclosing state
never changes; otherwise when `now.After(expiry) || now.Equal(expiry)` the
accumulated bids are snapshot into a descending-sorted `bidsList` and
`disclosing` becomes true. -/
def SealedBidState.Increment (s : SealedBidState) (now : GoTime) : SealedBidState :=
  if s.disclosing then s
  else if s.expiry ≤ now then
    { bids := s.bids, bidsList := sortBidsDesc (s.bids.map Prod.snd), disclosing := true,
      expiry := s.expiry, options := s.options }
  else s

/-- Go map read `bids[userId]` on the association-list embedding. -/
def findBid : List (UserId × Bid) → UserId → Option Bid
  | [], _ => none
  | (k, v) :: rest, id => if k = id then some v else findBid rest id

/-- `SealedBidState.AddBid` from the sealed-bid file: refresh via
`Increment(bid.At)`; fail `AuctionHasEnded` if disclosing; fail
`AlreadyPlacedBid` if the bidder already has a bid in the map; otherwise
insert the bid under the bidder's id and rebuild `bidsList` from the map. -/
def SealedBidState.AddBid (s : SealedBidState) (bid : Bid) :
    SealedBidState × Option DomainError :=
  let now := bid.At
  let auctionId := bid.ForAuction
  let userId := bid.Bidder.ID
  let sealedState := s.Increment now
  if sealedState.disclosing then
    (sealedState, some (.AuctionHasEnded auctionId))
  else if (findBid sealedState.bids userId).isSome then
    (sealedState, some .AlreadyPlacedBid)
  else
    let newBids := sealedState.bids ++ [(userId, bid)]
    ({ bids := newBids, bidsList := newBids.map Prod.snd,
       disclosing := sealedState.disclosing, expiry := sealedState.expiry,
       options := sealedState.options }, none)

/-- `SealedBidState.GetBids` from the sealed-bid file: the sorted snapshot
when disclosing, and the map's values otherwise. -/
def SealedBidState.GetBids (s : SealedBidState) : List Bid :=
  if s.disclosing then s.bidsList else s.bids.map Prod.snd

/-- `SealedBidState.TryGetAmountAndWinner` from the sealed-bid file; the Go
zero results become `(0, [], false)`.  For `Vickrey`, the highest bidder
pays the second-highest bid when it exists and its own bid otherwise; any
other flavor pays the highest bid. -/
def SealedBidState.TryGetAmountAndWinner (s : SealedBidState) : Int × UserId × Bool :=
  match s.disclosing, s.bidsList with
  | false, _ => (0, [], false)
  | true, [] => (0, [], false)
  | true, highestBid :: rest =>
      if s.options = Vickrey then
        match rest with
        | second :: _ => (second.Amount, highestBid.Bidder.ID, true)
        | [] => (highestBid.Amount, highestBid.Bidder.ID, true)
      else
        (highestBid.Amount, highestBid.Bidder.ID, true)

/-- `SealedBidState.HasEnded` from the sealed-bid file. -/
def SealedBidState.HasEnded (s : SealedBidState) : Bool :=
  s.disclosing

/-- Decimal digit to character, for the embedding of Go's `%d` printing. -/
def digitChar : Nat → Char
  | 0 => '0' | 1 => '1' | 2 => '2' | 3 => '3' | 4 => '4'
  | 5 => '5' | 6 => '6' | 7 => '7' | 8 => '8' | _ => '9'

/-- Decimal digits, fuel-based so that the kernel can evaluate it:
`natDigitsAux fuel n acc` prepends the digits of `n` to `acc`, correct
whenever `n < fuel`. -/
def natDigitsAux : Nat → Nat → List Char → List Char
  | 0, _, acc => acc
  | fuel + 1, n, acc =>
      if n < 10 then digitChar n :: acc
      else natDigitsAux fuel (n / 10) (digitChar (n % 10) :: acc)

/-- Decimal digits of a natural number, most significant first. -/
def natDigits (n : Nat) : List Char :=
  natDigitsAux (n + 1) n []

/-- The embedding of Go's `fmt...%d` for an `int64`. -/
def intChars (i : Int) : List Char :=
  if i < 0 then '-' :: natDigits i.natAbs else natDigits i.toNat

/-- Is the character an ASCII decimal digit. -/
def isDigitChar (c : Char) : Bool :=
  '0' ≤ c && c ≤ '9'

/-- Is the character an ASCII uppercase letter (the regex class `[A-Z]`). -/
def isUpperAZ (c : Char) : Bool :=
  'A' ≤ c && c ≤ 'Z'

/-- Numeric value of a digit string, accumulator form. -/
def digitsValAux (acc : Nat) : List Char → Nat
  | [] => acc
  | c :: rest => digitsValAux (10 * acc + (c.toNat - 48)) rest

/-- Numeric value of a decimal digit string. -/
def digitsVal (l : List Char) : Nat :=
  digitsValAux 0 l

/-- The embedding of Go's `strconv.ParseInt(s, 10, 64)`: an optional sign,
then one or more decimal digits, with the int64 range check. -/
def parseGoInt (s : GoString) : Option Int :=
  let signed : Option (Bool × GoString) :=
    match s with
    | '-' :: rest => some (true, rest)
    | '+' :: rest => some (false, rest)
    | _ => some (false, s)
  match signed with
  | some (neg, digits) =>
      if digits = [] ∨ ¬ digits.all isDigitChar then none
      else
        let v : Int := (digitsVal digits : Int)
        let v := if neg then -v else v
        if v < -(2 ^ 63) ∨ 2 ^ 63 - 1 < v then none else some v
  | none => none

/-- The embedding of Go's `strings.Split(s, "|")`. -/
def splitOnPipe : GoString → List GoString
  | [] => [[]]
  | c :: rest =>
      match splitOnPipe rest with
      | [] => [[c]]
      | p :: ps => if c = '|' then [] :: p :: ps else (c :: p) :: ps

/-- `ParseTimedAscendingOptions` from timed-ascending.go: splits on `|`,
requires exactly four parts headed by `"English"`, parses the three integer
fields, and converts the seconds field to a duration. -/
def ParseTimedAscendingOptions (s : GoString) : Option TimedAscendingOptions :=
  match splitOnPipe s with
  | [tag, p1, p2, p3] =>
      if tag = "English".toList then
        match parseGoInt p1, parseGoInt p2, parseGoInt p3 with
        | some reserveAmount, some minRaiseAmount, some seconds =>
            some { ReservePrice := reserveAmount, MinRaise := minRaiseAmount,
                   TimeFrame := seconds * goSecond }
        | _, _, _ => none
      else none
  | _ => none

/-- The standalone `domain.Amount` value object from core.go:
`(currency, int64 value)`. -/
structure Amount where
  Currency : CurrencyCode
  Value : Int
deriving DecidableEq

/-- `Amount.String` from core.go: the concatenation `CURRENCYVALUE`
(`fmt.Sprintf("%s%d", a.Currency, a.Value)`). -/
def Amount.string (a : Amount) : GoString :=
  a.Currency ++ intChars a.Value

/-- `domain.ParseAmount` from core.go: the regex `^([A-Z]+)(\d+)$` — a
nonempty greedy run of uppercase letters followed by a nonempty run of
digits covering the whole string — then `strconv.ParseInt` on the digits. -/
def ParseAmount (s : GoString) : Option Amount :=
  if s = [] then none
  else
    let cur := s.takeWhile isUpperAZ
    let rest := s.dropWhile isUpperAZ
    if cur = [] ∨ rest = [] ∨ ¬ rest.all isDigitChar then none
    else
      let value : Int := (digitsVal rest : Int)
      if 2 ^ 63 - 1 < value then none else some { Currency := cur, Value := value }

/-- `User.MarshalJSON` from core.go, at the level of the JSON string
payload: `"BuyerOrSeller|<id>|<name>"` when the type tag is
`"BuyerOrSeller"`, and `"Support|<id>"` for every other type tag. -/
def User.marshal (u : User) : GoString :=
  if u.Typ = "BuyerOrSeller".toList then
    "BuyerOrSeller|".toList ++ u.ID ++ "|".toList ++ u.Name
  else
    "Support|".toList ++ u.ID

/-- `User.UnmarshalJSON` from core.go, at the level of the JSON string
payload: split on `|`; `BuyerOrSeller` needs exactly three parts,
`Support` exactly two (leaving the Go zero value `""` as the name), and any
other leading tag is an error. -/
def User.unmarshal (s : GoString) : Option User :=
  match splitOnPipe s with
  | [] => none
  | tag :: rest =>
      if tag = "BuyerOrSeller".toList then
        match rest with
        | [id, name] => some { ID := id, Name := name, Typ := tag }
        | _ => none
      else if tag = "Support".toList then
        match rest with
        | [id] => some { ID := id, Name := [], Typ := tag }
        | _ => none
      else none

/-- `domain.AuctionTypeEnum`: a Go `int` with the constants
`TimedAscending = 0` and `SingleSealedBid = 1`. -/
abbrev AuctionTypeEnum := Int

/-- The `TimedAscending` enum constant. -/
def timedAscendingEnum : AuctionTypeEnum := 0

/-- The `SingleSealedBid` enum constant. -/
def singleSealedBidEnum : AuctionTypeEnum := 1

/-- `domain.AuctionType`: an enum tag plus the options stored as a string
(the Go field `Type` is renamed `Typ` because `Type` is a Lean keyword). -/
structure AuctionType where
  Typ : AuctionTypeEnum
  Options : GoString
deriving DecidableEq

/-- `domain.Auction` (the Go field `Type` is renamed `Typ`). -/
structure Auction where
  ID : AuctionId
  StartsAt : GoTime
  Title : GoString
  Expiry : GoTime
  Seller : User
  Typ : AuctionType
  Currency : CurrencyCode
deriving DecidableEq

/-- `Auction.ValidateBid`: the seller may not bid on their own auction. -/
def Auction.ValidateBid (a : Auction) (bid : Bid) : Option DomainError :=
  if bid.Bidder.ID = a.Seller.ID then
    some (.SellerCannotPlaceBids bid.Bidder.ID a.ID)
  else
    none

/-- The `domain.State` interface: the closed set of implementations is the
three timed-ascending states plus the sealed-bid state. -/
inductive State where
  | timedAscending (s : TimedAscendingState)
  | sealedBid (s : SealedBidState)
deriving DecidableEq

/-- Interface dispatch of `Increment`. -/
def State.Increment : State → GoTime → State
  | .timedAscending s, now => .timedAscending (s.Increment now)
  | .sealedBid s, now => .sealedBid (s.Increment now)

/-- Interface dispatch of `AddBid`. -/
def State.AddBid : State → Bid → State × Option DomainError
  | .timedAscending s, bid =>
      match s.AddBid bid with
      | (s2, err) => (.timedAscending s2, err)
  | .sealedBid s, bid =>
      match s.AddBid bid with
      | (s2, err) => (.sealedBid s2, err)

/-- Interface dispatch of `GetBids`. -/
def State.GetBids : State → List Bid
  | .timedAscending s => s.GetBids
  | .sealedBid s => s.GetBids

/-- Interface dispatch of `TryGetAmountAndWinner`. -/
def State.TryGetAmountAndWinner : State → Int × UserId × Bool
  | .timedAscending s => s.TryGetAmountAndWinner
  | .sealedBid s => s.TryGetAmountAndWinner

/-- Interface dispatch of `HasEnded`. -/
def State.HasEnded : State → Bool
  | .timedAscending s => s.HasEnded
  | .sealedBid s => s.HasEnded

/-- `Auction.CreateEmptyState`: a sealed-bid auction starts accepting with
the option string as flavor; a timed-ascending auction starts awaiting with
the parsed options, falling back to the defaults when parsing fails; any
unknown type tag defaults to a `Blind` sealed-bid auction. -/
def Auction.CreateEmptyState (a : Auction) : State :=
  if a.Typ.Typ = singleSealedBidEnum then
    .sealedBid (NewSealedBidState a.Expiry a.Typ.Options)
  else if a.Typ.Typ = timedAscendingEnum then
    match ParseTimedAscendingOptions a.Typ.Options with
    | some options => .timedAscending (NewTimedAscendingState a.StartsAt a.Expiry options)
    | none =>
        .timedAscending (NewTimedAscendingState a.StartsAt a.Expiry
          DefaultTimedAscendingOptions)
  else
    .sealedBid (NewSealedBidState a.Expiry Blind)

/-- The two `domain.Command` implementations from command.go. -/
inductive Command where
  | AddAuctionCommand (t : GoTime) (auction : Auction)
  | PlaceBidCommand (t : GoTime) (bid : Bid)
deriving DecidableEq

/-- The two `domain.Event` implementations from command.go. -/
inductive Event where
  | AuctionAddedEvent (t : GoTime) (auction : Auction)
  | BidAcceptedEvent (t : GoTime) (bid : Bid)
deriving DecidableEq

/-- `domain.Repository`: the Go map `map[AuctionId]{Auction, State}` as an
association list. -/
abbrev Repository := List (AuctionId × Auction × State)

/-- Go map lookup `repo[id]`. -/
def Repository.find : Repository → AuctionId → Option (Auction × State)
  | [], _ => none
  | (k, a, s) :: rest, id => if k = id then some (a, s) else Repository.find rest id

/-- Go map store `repo[id] = entry` (overwrite or append). -/
def Repository.store : Repository → AuctionId → Auction × State → Repository
  | [], id, e => [(id, e.1, e.2)]
  | (k, a, s) :: rest, id, e =>
      if k = id then (id, e.1, e.2) :: rest
      else (k, a, s) :: Repository.store rest id e

/-- `domain.copyRepository`: the Go function copies the map entry by entry;
on the value-semantics embedding this is the identity. -/
def copyRepository (repo : Repository) : Repository :=
  repo

/-- `domain.Handle` from command.go: `AddAuction` fails
`AuctionAlreadyExists` on a duplicate id and otherwise inserts a fresh
empty state; `PlaceBid` fails `UnknownAuction` on an absent id, propagates
`ValidateBid` and `AddBid` errors, and otherwise stores the new state; each
failure path returns the input repository. -/
def Handle (cmd : Command) (repo : Repository) :
    Option Event × Repository × Option DomainError :=
  match cmd with
  | .AddAuctionCommand t auction =>
      match Repository.find repo auction.ID with
      | some _ => (none, repo, some (.AuctionAlreadyExists auction.ID))
      | none =>
          let state := auction.CreateEmptyState
          let newRepo := Repository.store (copyRepository repo) auction.ID (auction, state)
          (some (.AuctionAddedEvent t auction), newRepo, none)
  | .PlaceBidCommand t bid =>
      let auctionId := bid.ForAuction
      match Repository.find repo auctionId with
      | none => (none, repo, some (.UnknownAuction auctionId))
      | some (auction, state) =>
          match auction.ValidateBid bid with
          | some err => (none, repo, some err)
          | none =>
              match State.AddBid state bid with
              | (_, some err) => (none, repo, some err)
              | (nextState, none) =>
                  (some (.BidAcceptedEvent t bid),
                    Repository.store (copyRepository repo) auctionId (auction, nextState),
                    none)

/-- `domain.EventsToAuctionStates` from command.go: fold the events in log
order; `AuctionAdded` inserts a fresh empty state, `BidAccepted` looks up
the entry (skipping orphans) and stores the state returned by `AddBid`,
discarding the error. -/
def EventsToAuctionStates (events : List Event) : Repository :=
  events.foldl
    (fun repo event =>
      match event with
      | .AuctionAddedEvent _ auction =>
          Repository.store repo auction.ID (auction, auction.CreateEmptyState)
      | .BidAcceptedEvent _ bid =>
          match Repository.find repo bid.ForAuction with
          | some (auction, state) =>
              Repository.store repo bid.ForAuction (auction, (State.AddBid state bid).1)
          | none => repo)
    []

/-- Timed-ascending states reachable from a fresh state
(`NewTimedAscendingState`) by any sequence of `Increment` calls and
successful `AddBid` calls. -/
inductive TAReachable : TimedAscendingState → Prop where
  | fresh (start expiry : GoTime) (options : TimedAscendingOptions) :
      TAReachable (NewTimedAscendingState start expiry options)
  | increment {s : TimedAscendingState} (now : GoTime) :
      TAReachable s → TAReachable (s.Increment now)
  | addBid {s s2 : TimedAscendingState} (b : Bid) :
      TAReachable s → s.AddBid b = (s2, none) → TAReachable s2

/-- Sealed-bid states reachable from a fresh state (`NewSealedBidState`) by
any sequence of `Increment` calls and `AddBid` calls (successful or not:
`AddBid` also returns a state on failure, which event replay stores). -/
inductive SBReachable : SealedBidState → Prop where
  | fresh (expiry : GoTime) (options : SealedBidOptions) :
      SBReachable (NewSealedBidState expiry options)
  | increment {s : SealedBidState} (now : GoTime) :
      SBReachable s → SBReachable (s.Increment now)
  | addBid {s s2 : SealedBidState} (b : Bid) {e : Option DomainError} :
      SBReachable s → s.AddBid b = (s2, e) → SBReachable s2

/-- Each adjacent pair in a bid list respects the minimum raise:
`bids[i].Amount ≥ bids[i+1].Amount + minRaise`. -/
def chainOK (minRaise : Int) : List Bid → Bool
  | [] => true
  | [_] => true
  | a :: b :: rest => decide (b.Amount + minRaise ≤ a.Amount) && chainOK minRaise (b :: rest)

/-- The raise-chain invariant of the timed-ascending automaton. -/
def taInv : TimedAscendingState → Prop
  | .AwaitingStartState _ _ _ => True
  | .OngoingState bids _ options => chainOK options.MinRaise bids = true
  | .EndedState bids _ options => chainOK options.MinRaise bids = true

/-- The key invariant of the sealed-bid map: the keys are distinct and every
entry is stored under its bidder's id. -/
def sbInv (s : SealedBidState) : Prop :=
  (s.bids.map Prod.fst).Nodup ∧ ∀ p ∈ s.bids, p.2.Bidder.ID = p.1

/-- A buyer used by concrete instances. -/
def buyer1 : User := NewBuyerOrSeller "b1".toList "Buyer One".toList

/-- A second buyer used by concrete instances. -/
def buyer2 : User := NewBuyerOrSeller "b2".toList "Buyer Two".toList

/-- Options with a negative minimum raise, as accepted by
`ParseTimedAscendingOptions` (for example from `"English|0|-5|0"`). -/
def cex7Options : TimedAscendingOptions := { ReservePrice := 0, MinRaise := -5, TimeFrame := 0 }

/-- First bid of the claim-7 counterexample run. -/
def cex7Bid1 : Bid := { ForAuction := 1, Bidder := buyer1, At := 2, Amount := 8 }

/-- Second bid of the claim-7 counterexample run: 5 ≥ 8 + (−5), accepted. -/
def cex7Bid2 : Bid := { ForAuction := 1, Bidder := buyer2, At := 3, Amount := 5 }

/-- The ongoing state reached by accepting 8 and then 5 under a −5 raise. -/
def cex7State : TimedAscendingState :=
  .OngoingState [cex7Bid2, cex7Bid1] 100 cex7Options

/-- First bid of the claim-8 counterexample run. -/
def cex8Bid1 : Bid := { ForAuction := 1, Bidder := buyer1, At := 50, Amount := 10 }

/-- A second bid by the same bidder, after the expiry of 100. -/
def cex8Bid2 : Bid := { ForAuction := 1, Bidder := buyer1, At := 150, Amount := 12 }

/-- The accepting sealed-bid state holding the first bid. -/
def cex8State : SealedBidState :=
  ((NewSealedBidState 100 Blind).AddBid cex8Bid1).1

/-- A duplicate bid by `buyer1` placed before the expiry. -/
def wBid8 : Bid := { ForAuction := 1, Bidder := buyer1, At := 60, Amount := 11 }

/-- First bid of a default-options happy-path run. -/
def wBid1 : Bid := { ForAuction := 1, Bidder := buyer1, At := 2, Amount := 10 }

/-- Second bid of a default-options happy-path run. -/
def wBid2 : Bid := { ForAuction := 1, Bidder := buyer2, At := 3, Amount := 12 }

/-- A concrete timed-ascending auction used by witnesses. -/
def wAuction : Auction :=
  { ID := 1, StartsAt := 0, Title := "t".toList, Expiry := 100, Seller := buyer2,
    Typ := { Typ := timedAscendingEnum, Options := "English|0|0|0".toList },
    Currency := "VAC".toList }

theorem ite_lt_eq_max (a b : Int) : (if a < b then b else a) = max a b := by
  rcases lt_or_ge a b with h | h
  · simp [h, max_eq_right h.le]
  · simp [not_lt.mpr h, max_eq_left h]

/-- C1: for an `OngoingState` whose refresh at the bid's time does not end
the auction, a first bid is accepted unconditionally; otherwise the bid is
accepted iff its amount is at least the head amount plus the minimum raise,
a rejection fails `MustPlaceBidOverHighest` with the head amount and keeps
the bid list unchanged, and an acceptance prepends the bid and sets the next
expiry to `max nextExpiry (bid.At + TimeFrame)`. -/
theorem ongoingState_addBid_spec (bids : List Bid) (nextExpiry : GoTime)
    (options : TimedAscendingOptions) (b : Bid)
    (h : ((TimedAscendingState.OngoingState bids nextExpiry options).Increment b.At).HasEnded
      = false) :
    (bids = [] →
      (TimedAscendingState.OngoingState bids nextExpiry options).AddBid b =
        (.OngoingState [b] (max nextExpiry (b.At + options.TimeFrame)) options, none)) ∧
    (∀ top rest, bids = top :: rest →
      (top.Amount + options.MinRaise ≤ b.Amount →
        (TimedAscendingState.OngoingState bids nextExpiry options).AddBid b =
          (.OngoingState (b :: bids) (max nextExpiry (b.At + options.TimeFrame)) options,
            none)) ∧
      (b.Amount < top.Amount + options.MinRaise →
        (TimedAscendingState.OngoingState bids nextExpiry options).AddBid b =
          (.OngoingState bids nextExpiry options,
            some (.MustPlaceBidOverHighest top.Amount)))) := by
  have hlt : ¬ nextExpiry ≤ b.At := by
    intro hc
    simp [TimedAscendingState.Increment, TimedAscendingState.HasEnded, if_pos hc] at h
  refine ⟨?_, ?_⟩
  · rintro rfl
    simp [TimedAscendingState.AddBid, TimedAscendingState.ongoingAddBid, hlt,
      ite_lt_eq_max]
  · rintro top rest rfl
    refine ⟨fun hacc => ?_, fun hrej => ?_⟩
    · simp [TimedAscendingState.AddBid, TimedAscendingState.ongoingAddBid, hlt, hacc,
        ite_lt_eq_max]
    · simp [TimedAscendingState.AddBid, TimedAscendingState.ongoingAddBid, hlt,
        not_le.mpr hrej]

/-- Witness for `ongoingState_addBid_spec` at a concrete ongoing state. -/
theorem ongoingState_addBid_spec_witness :
    ((TimedAscendingState.OngoingState [cex7Bid1] 100 DefaultTimedAscendingOptions).Increment
        cex7Bid2.At).HasEnded = false ∧
    ((cex7Bid1.Amount + DefaultTimedAscendingOptions.MinRaise ≤ cex7Bid2.Amount →
        (TimedAscendingState.OngoingState [cex7Bid1] 100 DefaultTimedAscendingOptions).AddBid
          cex7Bid2 =
          (.OngoingState [cex7Bid2, cex7Bid1]
            (max 100 (cex7Bid2.At + DefaultTimedAscendingOptions.TimeFrame))
            DefaultTimedAscendingOptions, none)) ∧
      (cex7Bid2.Amount < cex7Bid1.Amount + DefaultTimedAscendingOptions.MinRaise →
        (TimedAscendingState.OngoingState [cex7Bid1] 100 DefaultTimedAscendingOptions).AddBid
          cex7Bid2 =
          (.OngoingState [cex7Bid1] 100 DefaultTimedAscendingOptions,
            some (.MustPlaceBidOverHighest cex7Bid1.Amount)))) :=
  ⟨by decide,
    (ongoingState_addBid_spec [cex7Bid1] 100 DefaultTimedAscendingOptions cex7Bid2
      (by decide)).2 cex7Bid1 [] rfl⟩

/-- C2: whenever `Handle` returns a non-nil error, the repository it
returns is exactly the input repository, on every failure path of both the
`AddAuction` and `PlaceBid` branches. -/
theorem handle_failure_preserves_repository (cmd : Command) (repo : Repository)
    (ev : Option Event) (repo2 : Repository) (e : DomainError)
    (h : Handle cmd repo = (ev, repo2, some e)) : repo2 = repo := by
  cases cmd with
  | AddAuctionCommand t auction =>
      cases hf : Repository.find repo auction.ID with
      | some entry =>
          simp [Handle, hf] at h
          exact h.2.1.symm
      | none => simp [Handle, hf] at h
  | PlaceBidCommand t bid =>
      cases hf : Repository.find repo bid.ForAuction with
      | none =>
          simp [Handle, hf] at h
          exact h.2.1.symm
      | some entry =>
          obtain ⟨auction, state⟩ := entry
          cases hv : auction.ValidateBid bid with
          | some err =>
              simp [Handle, hf, hv] at h
              exact h.2.1.symm
          | none =>
              cases hab : State.AddBid state bid with
              | mk ns oe =>
                  cases oe with
                  | some err =>
                      simp [Handle, hf, hv, hab] at h
                      exact h.2.1.symm
                  | none => simp [Handle, hf, hv, hab] at h

/-- Witness for `handle_failure_preserves_repository` at a concrete failing
command: a bid on an empty repository. -/
theorem handle_failure_preserves_repository_witness :
    Handle (.PlaceBidCommand 0 cex7Bid1) [] =
      (none, [], some (.UnknownAuction cex7Bid1.ForAuction)) ∧ ([] : Repository) = [] :=
  ⟨by decide,
    handle_failure_preserves_repository (.PlaceBidCommand 0 cex7Bid1) [] none []
      (.UnknownAuction cex7Bid1.ForAuction) (by decide)⟩

/-- C3: in the disclosing phase with a non-empty sorted list, `Blind` pays
the top amount to the top bidder; `Vickrey` pays the second amount when a
second bid exists and the top amount otherwise, always to the top bidder;
an empty list or a state before disclosure reports no winner. -/
theorem sealedBidState_tryGetAmountAndWinner_spec (s : SealedBidState) :
    (s.disclosing = true →
      (∀ top rest, s.bidsList = top :: rest →
        (s.options = Blind →
          s.TryGetAmountAndWinner = (top.Amount, top.Bidder.ID, true)) ∧
        (s.options = Vickrey →
          (∀ second rest2, rest = second :: rest2 →
            s.TryGetAmountAndWinner = (second.Amount, top.Bidder.ID, true)) ∧
          (rest = [] →
            s.TryGetAmountAndWinner = (top.Amount, top.Bidder.ID, true)))) ∧
      (s.bidsList = [] → s.TryGetAmountAndWinner = (0, [], false))) ∧
    (s.disclosing = false → s.TryGetAmountAndWinner = (0, [], false)) := by
  obtain ⟨bids, bidsList, disclosing, expiry, options⟩ := s
  refine ⟨fun hd => ⟨fun top rest hl => ⟨fun hb => ?_, fun hv => ⟨fun second rest2 hr => ?_,
    fun hr => ?_⟩⟩, fun hl => ?_⟩, fun hd => ?_⟩ <;>
    subst_vars <;>
    simp [SealedBidState.TryGetAmountAndWinner]
  exact fun hv => absurd hv (by decide)

/-- Witness for `sealedBidState_tryGetAmountAndWinner_spec` at a concrete
disclosing Vickrey state with two bids. -/
theorem sealedBidState_tryGetAmountAndWinner_spec_witness :
    ({ bids := [(buyer1.ID, cex8Bid1), (buyer2.ID, cex8Bid2)],
       bidsList := [cex8Bid2, cex8Bid1], disclosing := true, expiry := 100,
       options := Vickrey } : SealedBidState).disclosing = true ∧
    ({ bids := [(buyer1.ID, cex8Bid1), (buyer2.ID, cex8Bid2)],
       bidsList := [cex8Bid2, cex8Bid1], disclosing := true, expiry := 100,
       options := Vickrey } : SealedBidState).TryGetAmountAndWinner =
      (cex8Bid1.Amount, cex8Bid2.Bidder.ID, true) :=
  ⟨rfl,
    (((sealedBidState_tryGetAmountAndWinner_spec _).1 rfl).1 cex8Bid2 [cex8Bid1] rfl).2
      (by decide) |>.1 cex8Bid1 [] rfl⟩

/-- C4: an `EndedState` with no bids has no winner; with bids it returns
the head bid and its bidder exactly when the head amount strictly exceeds
the reserve price; `OngoingState` and `AwaitingStartState` never report a
winner. -/
theorem timedAscending_tryGetAmountAndWinner_spec (bids : List Bid) (t1 t2 : GoTime)
    (options : TimedAscendingOptions) :
    ((bids = [] →
        (TimedAscendingState.EndedState bids t1 options).TryGetAmountAndWinner =
          (0, [], false)) ∧
      (∀ top rest, bids = top :: rest →
        (options.ReservePrice < top.Amount →
          (TimedAscendingState.EndedState bids t1 options).TryGetAmountAndWinner =
            (top.Amount, top.Bidder.ID, true)) ∧
        (top.Amount ≤ options.ReservePrice →
          (TimedAscendingState.EndedState bids t1 options).TryGetAmountAndWinner =
            (0, [], false)))) ∧
    (TimedAscendingState.OngoingState bids t1 options).TryGetAmountAndWinner =
      (0, [], false) ∧
    (TimedAscendingState.AwaitingStartState t1 t2 options).TryGetAmountAndWinner =
      (0, [], false) := by
  refine ⟨⟨fun hl => ?_, fun top rest hl => ⟨fun hres => ?_, fun hres => ?_⟩⟩, ?_, ?_⟩
  · subst hl; simp [TimedAscendingState.TryGetAmountAndWinner]
  · subst hl; simp [TimedAscendingState.TryGetAmountAndWinner, hres]
  · subst hl; simp [TimedAscendingState.TryGetAmountAndWinner, not_lt.mpr hres]
  · simp [TimedAscendingState.TryGetAmountAndWinner]
  · simp [TimedAscendingState.TryGetAmountAndWinner]

/-- Witness for `timedAscending_tryGetAmountAndWinner_spec` at a concrete
ended state whose head bid beats the reserve. -/
theorem timedAscending_tryGetAmountAndWinner_spec_witness :
    DefaultTimedAscendingOptions.ReservePrice < cex7Bid1.Amount ∧
    (TimedAscendingState.EndedState [cex7Bid1] 100
        DefaultTimedAscendingOptions).TryGetAmountAndWinner =
      (cex7Bid1.Amount, cex7Bid1.Bidder.ID, true) :=
  ⟨by decide,
    ((timedAscending_tryGetAmountAndWinner_spec [cex7Bid1] 100 0
      DefaultTimedAscendingOptions).1.2 cex7Bid1 [] rfl).1 (by decide)⟩

/-- C5 counterexample: with `start = 10` and `startingExpiry = 5`, the time
`now = 7` satisfies `now ≥ startingExpiry`, yet `Increment` keeps the state
awaiting instead of returning the ended state the claim requires, because
the code first requires `now.After(start)`. -/
theorem awaitingStart_increment_cex :
    (5 : GoTime) ≤ 7 ∧
    (TimedAscendingState.AwaitingStartState 10 5 DefaultTimedAscendingOptions).Increment 7 =
      .AwaitingStartState 10 5 DefaultTimedAscendingOptions ∧
    (TimedAscendingState.AwaitingStartState 10 5 DefaultTimedAscendingOptions).Increment 7 ≠
      .EndedState [] 5 DefaultTimedAscendingOptions := by decide

/-- C5 (amended): for `now` strictly after the start and at or past the
starting expiry, `Increment` returns the ended state with no bids and the
starting expiry; and `Increment` at exactly the start time keeps the state
awaiting. -/
theorem awaitingStart_increment_spec (start startingExpiry : GoTime)
    (options : TimedAscendingOptions) (now : GoTime) :
    (start < now → startingExpiry ≤ now →
      (TimedAscendingState.AwaitingStartState start startingExpiry options).Increment now =
        .EndedState [] startingExpiry options) ∧
    (TimedAscendingState.AwaitingStartState start startingExpiry options).Increment start =
      .AwaitingStartState start startingExpiry options := by
  constructor
  · intro h1 h2
    simp [TimedAscendingState.Increment, h1, not_lt.mpr h2]
  · simp [TimedAscendingState.Increment]

/-- Witness for `awaitingStart_increment_spec` at concrete times. -/
theorem awaitingStart_increment_spec_witness :
    (0 : GoTime) < 100 ∧ (5 : GoTime) ≤ 100 ∧
    (TimedAscendingState.AwaitingStartState 0 5 DefaultTimedAscendingOptions).Increment 100 =
      .EndedState [] 5 DefaultTimedAscendingOptions :=
  ⟨by decide, by decide,
    (awaitingStart_increment_spec 0 5 DefaultTimedAscendingOptions 100).1 (by decide)
      (by decide)⟩

/-- C6: every state of either automaton with `HasEnded` true rejects every
bid, with the `AuctionHasEnded` error carrying the bid's auction id. -/
theorem hasEnded_addBid_fails (s : State) (b : Bid) (h : s.HasEnded = true) :
    (State.AddBid s b).2 = some (.AuctionHasEnded b.ForAuction) := by
  cases s with
  | timedAscending ta =>
      cases ta with
      | AwaitingStartState start startingExpiry options =>
          simp [State.HasEnded, TimedAscendingState.HasEnded] at h
      | OngoingState bids nextExpiry options =>
          simp [State.HasEnded, TimedAscendingState.HasEnded] at h
      | EndedState bids expiry options =>
          simp [State.AddBid, TimedAscendingState.AddBid]
  | sealedBid sb =>
      simp only [State.HasEnded, SealedBidState.HasEnded] at h
      simp [State.AddBid, SealedBidState.AddBid, SealedBidState.Increment, h]

/-- Witness for `hasEnded_addBid_fails` at a concrete ended state. -/
theorem hasEnded_addBid_fails_witness :
    (State.timedAscending
        (.EndedState [] 100 DefaultTimedAscendingOptions)).HasEnded = true ∧
    (State.AddBid
        (State.timedAscending (.EndedState [] 100 DefaultTimedAscendingOptions))
        cex7Bid1).2 = some (.AuctionHasEnded cex7Bid1.ForAuction) :=
  ⟨by decide,
    hasEnded_addBid_fails
      (State.timedAscending (.EndedState [] 100 DefaultTimedAscendingOptions)) cex7Bid1
      (by decide)⟩

/-- C10: when `AddBid` fails because the refresh at the bid's time reaches
the terminal phase, the state returned with the `AuctionHasEnded` error is
the advanced terminal state and not the non-terminal receiver; and event
replay stores the state returned by `AddBid` while discarding the error, so
a replayed rejected bid still advances the stored automaton. -/
theorem rejected_bid_stores_advanced_state (bids : List Bid) (nextExpiry : GoTime)
    (options : TimedAscendingOptions) (sb : SealedBidState) (b : Bid)
    (events : List Event) (t : GoTime) (auction : Auction) (st : State) :
    (nextExpiry ≤ b.At →
      (TimedAscendingState.OngoingState bids nextExpiry options).AddBid b =
        (.EndedState bids nextExpiry options, some (.AuctionHasEnded b.ForAuction)) ∧
      (TimedAscendingState.EndedState bids nextExpiry options).HasEnded = true ∧
      (TimedAscendingState.OngoingState bids nextExpiry options).HasEnded = false) ∧
    (sb.disclosing = false → sb.expiry ≤ b.At →
      sb.AddBid b = (sb.Increment b.At, some (.AuctionHasEnded b.ForAuction)) ∧
      (sb.Increment b.At).disclosing = true ∧ sb.Increment b.At ≠ sb) ∧
    (Repository.find (EventsToAuctionStates events) b.ForAuction = some (auction, st) →
      EventsToAuctionStates (events ++ [.BidAcceptedEvent t b]) =
        Repository.store (EventsToAuctionStates events) b.ForAuction
          (auction, (State.AddBid st b).1)) := by
  refine ⟨fun h1 => ?_, fun h2 h3 => ?_, fun h4 => ?_⟩
  · refine ⟨?_, rfl, rfl⟩
    simp [TimedAscendingState.AddBid, TimedAscendingState.ongoingAddBid, h1]
  · have hIncr : sb.Increment b.At =
        { bids := sb.bids, bidsList := sortBidsDesc (sb.bids.map Prod.snd),
          disclosing := true, expiry := sb.expiry, options := sb.options } := by
      simp [SealedBidState.Increment, h2, h3]
    refine ⟨?_, ?_, ?_⟩
    · simp [SealedBidState.AddBid, hIncr]
    · simp [hIncr]
    · intro heq
      rw [heq] at hIncr
      have : sb.disclosing = true := by rw [hIncr]
      rw [h2] at this
      exact Bool.false_ne_true this
  · simp only [EventsToAuctionStates] at h4 ⊢
    rw [List.foldl_append]
    simp only [List.foldl_cons, List.foldl_nil]
    rw [h4]

/-- Witness for `rejected_bid_stores_advanced_state` at a late bid against
an ongoing auction, a fresh sealed auction, and a one-event log. -/
theorem rejected_bid_stores_advanced_state_witness :
    ((TimedAscendingState.OngoingState [] 100 DefaultTimedAscendingOptions).AddBid cex8Bid2 =
      (.EndedState [] 100 DefaultTimedAscendingOptions,
        some (.AuctionHasEnded cex8Bid2.ForAuction))) ∧
    ((NewSealedBidState 100 Blind).AddBid cex8Bid2 =
      ((NewSealedBidState 100 Blind).Increment cex8Bid2.At,
        some (.AuctionHasEnded cex8Bid2.ForAuction))) ∧
    (EventsToAuctionStates ([.AuctionAddedEvent 0 wAuction] ++ [.BidAcceptedEvent 5 cex8Bid2]) =
      Repository.store (EventsToAuctionStates [.AuctionAddedEvent 0 wAuction])
        cex8Bid2.ForAuction
        (wAuction, (State.AddBid wAuction.CreateEmptyState cex8Bid2).1)) := by
  have main := rejected_bid_stores_advanced_state [] 100 DefaultTimedAscendingOptions
    (NewSealedBidState 100 Blind) cex8Bid2 [.AuctionAddedEvent 0 wAuction] 5 wAuction
    wAuction.CreateEmptyState
  exact ⟨(main.1 (by decide)).1, (main.2.1 (by decide) (by decide)).1,
    main.2.2 (by decide)⟩

theorem taInv_increment (s : TimedAscendingState) (now : GoTime) (h : taInv s) :
    taInv (s.Increment now) := by
  cases s with
  | AwaitingStartState start se o =>
      simp only [TimedAscendingState.Increment]
      split_ifs <;> simp [taInv, chainOK]
  | OngoingState bids ne o =>
      simp only [TimedAscendingState.Increment]
      split_ifs <;> simpa [taInv] using h
  | EndedState bids e o => simpa [TimedAscendingState.Increment, taInv] using h

theorem taInv_ongoingAddBid (bids : List Bid) (ne : GoTime) (o : TimedAscendingOptions)
    (b : Bid) (h : chainOK o.MinRaise bids = true) :
    taInv (TimedAscendingState.ongoingAddBid bids ne o b).1 := by
  by_cases h1 : ne ≤ b.At
  · simpa [TimedAscendingState.ongoingAddBid, h1, taInv] using h
  · cases bids with
    | nil => simp [TimedAscendingState.ongoingAddBid, h1, taInv, chainOK]
    | cons top rest =>
        by_cases h2 : top.Amount + o.MinRaise ≤ b.Amount
        · simp only [TimedAscendingState.ongoingAddBid, if_neg h1, if_pos h2, taInv]
          simp [chainOK, h2, h]
        · simpa [TimedAscendingState.ongoingAddBid, h1, h2, taInv] using h

theorem taInv_addBid (s : TimedAscendingState) (b : Bid) (h : taInv s) :
    taInv (s.AddBid b).1 := by
  cases s with
  | AwaitingStartState start se o =>
      have hinc := taInv_increment (.AwaitingStartState start se o) b.At h
      simp only [TimedAscendingState.AddBid]
      cases hI : (TimedAscendingState.AwaitingStartState start se o).Increment b.At with
      | AwaitingStartState a e oo => simp [taInv]
      | OngoingState bids2 ne2 oo =>
          rw [hI] at hinc
          exact taInv_ongoingAddBid bids2 ne2 oo b (by simpa [taInv] using hinc)
      | EndedState bids2 e2 oo =>
          rw [hI] at hinc
          simpa [taInv] using hinc
  | OngoingState bids ne o =>
      exact taInv_ongoingAddBid bids ne o b (by simpa [taInv] using h)
  | EndedState bids e o => simpa [TimedAscendingState.AddBid, taInv] using h

theorem taReachable_taInv {s : TimedAscendingState} (h : TAReachable s) : taInv s := by
  induction h with
  | fresh start expiry options => simp [NewTimedAscendingState, taInv]
  | increment now _ ih => exact taInv_increment _ now ih
  | addBid b _ heq ih =>
      have h2 := taInv_addBid _ b ih
      rw [heq] at h2
      exact h2

theorem chainOK_head_max (m : Int) (hm : 0 ≤ m) (l : List Bid) :
    ∀ top : Bid, chainOK m (top :: l) = true → ∀ x ∈ top :: l, x.Amount ≤ top.Amount := by
  induction l with
  | nil =>
      intro top _ x hx
      simp at hx
      subst hx
      exact le_refl _
  | cons c rest ih =>
      intro top hchain x hx
      simp only [chainOK, Bool.and_eq_true, decide_eq_true_eq] at hchain
      rcases List.mem_cons.mp hx with hx | hx
      · subst hx; exact le_refl _
      · have h2 := ih c hchain.2 x hx
        have h3 := hchain.1
        omega

/-- C7 counterexample: with the parseable options `"English|0|-5|0"`
(minimum raise −5), the run that accepts 8 and then 5 reaches an ongoing
state whose bid list is `[5, 8]`: every adjacent pair respects the raise,
yet the head amount 5 is not the maximum of the list. -/
theorem ta_head_not_max_cex :
    TAReachable cex7State ∧
    cex7State.GetBids.map Bid.Amount = [5, 8] ∧
    ¬ ∀ x ∈ cex7State.GetBids, x.Amount ≤ cex7Bid2.Amount := by
  refine ⟨?_, by decide, by decide⟩
  have h1 := TAReachable.increment 1 (TAReachable.fresh 0 100 cex7Options)
  rw [show (NewTimedAscendingState 0 100 cex7Options).Increment 1 =
    .OngoingState [] 100 cex7Options by decide] at h1
  have h2 := TAReachable.addBid cex7Bid1 h1
    (show (TimedAscendingState.OngoingState [] 100 cex7Options).AddBid cex7Bid1 =
      (.OngoingState [cex7Bid1] 100 cex7Options, none) by decide)
  exact TAReachable.addBid cex7Bid2 h2
    (show (TimedAscendingState.OngoingState [cex7Bid1] 100 cex7Options).AddBid cex7Bid2 =
      (cex7State, none) by decide)

/-- C7 (amended): every `Ongoing` or `Ended` state reachable from a fresh
state by `Increment` and successful `AddBid` satisfies the adjacent-pair
raise chain `bids[i].Amount ≥ bids[i+1].Amount + MinRaise`; when the
minimum raise is nonnegative the head of the bid list is the maximum
amount (with a negative minimum raise it need not be, see the
counterexample). -/
theorem taReachable_bids_chain (s : TimedAscendingState) (h : TAReachable s)
    (bids : List Bid) (t : GoTime) (options : TimedAscendingOptions)
    (hs : s = .OngoingState bids t options ∨ s = .EndedState bids t options) :
    chainOK options.MinRaise bids = true ∧
    (0 ≤ options.MinRaise → ∀ top rest, bids = top :: rest →
      ∀ x ∈ bids, x.Amount ≤ top.Amount) := by
  have hinv := taReachable_taInv h
  rcases hs with rfl | rfl <;>
  · simp only [taInv] at hinv
    refine ⟨hinv, fun hm top rest hl => ?_⟩
    subst hl
    exact chainOK_head_max _ hm rest top hinv

/-- Witness for `taReachable_bids_chain` on a default-options run that
accepts 10 and then 12. -/
theorem taReachable_bids_chain_witness :
    chainOK DefaultTimedAscendingOptions.MinRaise [wBid2, wBid1] = true ∧
    (0 ≤ DefaultTimedAscendingOptions.MinRaise →
      ∀ top rest, [wBid2, wBid1] = top :: rest →
        ∀ x ∈ [wBid2, wBid1], x.Amount ≤ top.Amount) := by
  have h1 := TAReachable.increment 1 (TAReachable.fresh 0 100 DefaultTimedAscendingOptions)
  rw [show (NewTimedAscendingState 0 100 DefaultTimedAscendingOptions).Increment 1 =
    .OngoingState [] 100 DefaultTimedAscendingOptions by decide] at h1
  have h2 := TAReachable.addBid wBid1 h1
    (show (TimedAscendingState.OngoingState [] 100 DefaultTimedAscendingOptions).AddBid wBid1 =
      (.OngoingState [wBid1] 100 DefaultTimedAscendingOptions, none) by decide)
  have h3 := TAReachable.addBid wBid2 h2
    (show (TimedAscendingState.OngoingState [wBid1] 100
        DefaultTimedAscendingOptions).AddBid wBid2 =
      (.OngoingState [wBid2, wBid1] 100 DefaultTimedAscendingOptions, none) by decide)
  exact taReachable_bids_chain _ h3 [wBid2, wBid1] 100 DefaultTimedAscendingOptions
    (Or.inl rfl)

theorem findBid_eq_none_iff (l : List (UserId × Bid)) (k : UserId) :
    findBid l k = none ↔ k ∉ l.map Prod.fst := by
  induction l with
  | nil => simp [findBid]
  | cons p rest ih =>
      obtain ⟨k2, v⟩ := p
      simp only [findBid, List.map_cons, List.mem_cons]
      by_cases hk : k2 = k
      · subst hk
        simp only [if_pos rfl]
        constructor
        · intro h
          exact Option.noConfusion h
        · intro h
          exact (h (Or.inl trivial)).elim
      · rw [if_neg hk, ih]
        constructor
        · intro h hmem
          rcases hmem with hmem | hmem
          · exact hk hmem.symm
          · exact h hmem
        · intro h hmem
          exact h (Or.inr hmem)

theorem sbInv_increment (s : SealedBidState) (now : GoTime) (h : sbInv s) :
    sbInv (s.Increment now) := by
  unfold SealedBidState.Increment
  split_ifs <;> exact h

theorem sbInv_addBid (s : SealedBidState) (b : Bid) (h : sbInv s) :
    sbInv (s.AddBid b).1 := by
  have h2 := sbInv_increment s b.At h
  unfold SealedBidState.AddBid
  by_cases hd : (s.Increment b.At).disclosing
  · simpa [hd] using h2
  · by_cases hf : (findBid (s.Increment b.At).bids b.Bidder.ID).isSome
    · simpa [hd, hf] using h2
    · have hnone : findBid (s.Increment b.At).bids b.Bidder.ID = none :=
        Option.not_isSome_iff_eq_none.mp hf
      have hnot : b.Bidder.ID ∉ (s.Increment b.At).bids.map Prod.fst :=
        (findBid_eq_none_iff _ _).mp hnone
      simp only [hd, hf, if_neg, Bool.false_eq_true, not_false_eq_true, ite_false, ite_true,
        if_pos]
      constructor
      · rw [List.map_append]
        refine List.Nodup.append h2.1 (List.nodup_singleton _) ?_
        intro a ha hb
        simp only [List.map_cons, List.map_nil, List.mem_singleton] at hb
        subst hb
        exact hnot ha
      · intro p hp
        rcases List.mem_append.mp hp with hp | hp
        · exact h2.2 p hp
        · simp only [List.mem_singleton] at hp
          subst hp
          rfl

theorem sbReachable_sbInv {s : SealedBidState} (h : SBReachable s) : sbInv s := by
  induction h with
  | fresh e o => exact ⟨List.nodup_nil, fun p hp => absurd hp (List.not_mem_nil p)⟩
  | increment now _ ih => exact sbInv_increment _ now ih
  | addBid b _ heq ih =>
      have h2 := sbInv_addBid _ b ih
      rw [heq] at h2
      exact h2

/-- C8 counterexample: the reachable accepting state `cex8State` already
holds a bid by `buyer1`, yet a second bid by `buyer1` arriving after the
expiry fails with `AuctionHasEnded`, not `AlreadyPlacedBid`, because
`AddBid` first refreshes the state to the bid's time. -/
theorem sealedBid_duplicate_after_expiry_cex :
    SBReachable cex8State ∧
    cex8State.disclosing = false ∧
    (findBid cex8State.bids cex8Bid2.Bidder.ID).isSome = true ∧
    (cex8State.AddBid cex8Bid2).2 = some (.AuctionHasEnded 1) ∧
    some (DomainError.AuctionHasEnded 1) ≠ some DomainError.AlreadyPlacedBid := by
  refine ⟨?_, by decide, by decide, by decide, by decide⟩
  exact SBReachable.addBid cex8Bid1 (SBReachable.fresh 100 Blind)
    (show (NewSealedBidState 100 Blind).AddBid cex8Bid1 = (cex8State, none) by decide)

/-- C8 (amended): in every reachable accepting sealed-bid state the bidder
ids among the accepted bids are pairwise distinct; and a bid placed before
the expiry by a bidder who already has an accepted bid fails with
`AlreadyPlacedBid` and returns the receiver state unchanged (a duplicate
bid at or after the expiry instead fails `AuctionHasEnded`, see the
counterexample). -/
theorem sealedBid_unique_bidders (s : SealedBidState) (h : SBReachable s)
    (hacc : s.disclosing = false) :
    (s.GetBids.map (fun b => b.Bidder.ID)).Nodup ∧
    (∀ b : Bid, b.At < s.expiry → (findBid s.bids b.Bidder.ID).isSome →
      s.AddBid b = (s, some .AlreadyPlacedBid)) := by
  have hinv := sbReachable_sbInv h
  constructor
  · have hmap : s.GetBids.map (fun b => b.Bidder.ID) = s.bids.map Prod.fst := by
      simp only [SealedBidState.GetBids, hacc, Bool.false_eq_true, if_false, List.map_map]
      exact List.map_congr_left fun p hp => hinv.2 p hp
    rw [hmap]
    exact hinv.1
  · intro b hb hfind
    have hIncr : s.Increment b.At = s := by
      unfold SealedBidState.Increment
      simp [hacc, not_le.mpr hb]
    unfold SealedBidState.AddBid
    simp [hIncr, hacc, hfind]

/-- Witness for `sealedBid_unique_bidders` at the reachable one-bid
accepting state, with a duplicate bid before the expiry. -/
theorem sealedBid_unique_bidders_witness :
    (cex8State.GetBids.map (fun b => b.Bidder.ID)).Nodup ∧
    cex8State.AddBid wBid8 = (cex8State, some .AlreadyPlacedBid) := by
  have hr : SBReachable cex8State :=
    SBReachable.addBid cex8Bid1 (SBReachable.fresh 100 Blind)
      (show (NewSealedBidState 100 Blind).AddBid cex8Bid1 = (cex8State, none) by decide)
  have main := sealedBid_unique_bidders cex8State hr (by decide)
  exact ⟨main.1, main.2 wBid8 (by decide) (by decide)⟩

theorem digitsValAux_nil (acc : Nat) : digitsValAux acc [] = acc := rfl

theorem digitsValAux_cons (acc : Nat) (c : Char) (rest : List Char) :
    digitsValAux acc (c :: rest) = digitsValAux (10 * acc + (c.toNat - 48)) rest := rfl

theorem digitsValAux_append (l1 : List Char) :
    ∀ (acc : Nat) (l2 : List Char),
      digitsValAux acc (l1 ++ l2) = digitsValAux (digitsValAux acc l1) l2 := by
  induction l1 with
  | nil => intro acc l2; rfl
  | cons c rest ih => intro acc l2; exact ih _ l2

theorem digitChar_props (d : Nat) (h : d < 10) :
    isDigitChar (digitChar d) = true ∧ isUpperAZ (digitChar d) = false ∧
      (digitChar d).toNat - 48 = d := by
  interval_cases d <;> exact ⟨by decide, by decide, by decide⟩

theorem natDigitsAux_acc (fuel : Nat) :
    ∀ (n : Nat) (acc : List Char), natDigitsAux fuel n acc = natDigitsAux fuel n [] ++ acc := by
  induction fuel with
  | zero => intro n acc; simp [natDigitsAux]
  | succ fuel ih =>
      intro n acc
      by_cases h : n < 10
      · simp [natDigitsAux, h]
      · simp only [natDigitsAux, if_neg h]
        rw [ih (n / 10) (digitChar (n % 10) :: acc), ih (n / 10) [digitChar (n % 10)]]
        simp

theorem natDigitsAux_props (fuel : Nat) :
    ∀ n : Nat, n < fuel →
      natDigitsAux fuel n [] ≠ [] ∧
      (∀ c ∈ natDigitsAux fuel n [], isDigitChar c = true ∧ isUpperAZ c = false) ∧
      (∀ acc, digitsValAux acc (natDigitsAux fuel n []) =
        acc * 10 ^ (natDigitsAux fuel n []).length + n) := by
  induction fuel with
  | zero => intro n hn; omega
  | succ fuel ih =>
      intro n hn
      by_cases h : n < 10
      · refine ⟨by simp [natDigitsAux, h], ?_, ?_⟩
        · intro c hc
          simp only [natDigitsAux, if_pos h, List.mem_singleton] at hc
          subst hc
          exact ⟨(digitChar_props n h).1, (digitChar_props n h).2.1⟩
        · intro acc
          simp only [natDigitsAux, if_pos h, digitsValAux_cons, digitsValAux_nil, List.length_singleton]
          rw [(digitChar_props n h).2.2]
          ring
      · have hdiv : n / 10 < fuel := by
          have h1 : n / 10 < n := Nat.div_lt_self (by omega) (by omega)
          omega
        obtain ⟨ihne, ihmem, ihval⟩ := ih (n / 10) hdiv
        have hsplit : natDigitsAux (fuel + 1) n [] =
            natDigitsAux fuel (n / 10) [] ++ [digitChar (n % 10)] := by
          simp only [natDigitsAux, if_neg h]
          exact natDigitsAux_acc fuel (n / 10) [digitChar (n % 10)]
        have hmod : n % 10 < 10 := Nat.mod_lt _ (by omega)
        refine ⟨?_, ?_, ?_⟩
        · rw [hsplit]
          simp
        · intro c hc
          rw [hsplit, List.mem_append] at hc
          rcases hc with hc | hc
          · exact ihmem c hc
          · simp only [List.mem_singleton] at hc
            subst hc
            exact ⟨(digitChar_props _ hmod).1, (digitChar_props _ hmod).2.1⟩
        · intro acc
          rw [hsplit, digitsValAux_append _ _ _]
          rw [ihval acc]
          simp only [digitsValAux_cons, digitsValAux_nil, List.length_append,
            List.length_singleton]
          rw [(digitChar_props _ hmod).2.2]
          have hdm := Nat.div_add_mod n 10
          rw [pow_succ]
          ring_nf
          omega

theorem natDigits_ne_nil (n : Nat) : natDigits n ≠ [] :=
  (natDigitsAux_props (n + 1) n (by omega)).1

theorem natDigits_mem (n : Nat) :
    ∀ c ∈ natDigits n, isDigitChar c = true ∧ isUpperAZ c = false :=
  (natDigitsAux_props (n + 1) n (by omega)).2.1

theorem digitsVal_natDigits (n : Nat) : digitsVal (natDigits n) = n := by
  have h := (natDigitsAux_props (n + 1) n (by omega)).2.2 0
  simpa [digitsVal, natDigits] using h

theorem takeWhile_append_of_all (p : Char → Bool) (l1 l2 : List Char)
    (h1 : ∀ c ∈ l1, p c = true) (h2 : ∀ c l3, l2 = c :: l3 → p c = false) :
    (l1 ++ l2).takeWhile p = l1 ∧ (l1 ++ l2).dropWhile p = l2 := by
  induction l1 with
  | nil =>
      cases l2 with
      | nil => simp
      | cons c l3 => simp [List.takeWhile_cons, List.dropWhile_cons, h2 c l3 rfl]
  | cons a l1 ih =>
      have ha := h1 a (List.mem_cons_self a l1)
      have ihr := ih fun c hc => h1 c (List.mem_cons_of_mem a hc)
      simp only [List.cons_append, List.takeWhile_cons, List.dropWhile_cons, ha]
      simp only [if_pos rfl, ite_true]
      exact ⟨by rw [ihr.1], by rw [ihr.2]⟩

theorem splitOnPipe_ne_nil (l : GoString) : splitOnPipe l ≠ [] := by
  cases l with
  | nil => simp [splitOnPipe]
  | cons c rest =>
      simp only [splitOnPipe]
      cases splitOnPipe rest with
      | nil => simp
      | cons p ps => split_ifs <;> simp

theorem splitOnPipe_no_pipe (l : GoString) (h : '|' ∉ l) : splitOnPipe l = [l] := by
  induction l with
  | nil => rfl
  | cons c rest ih =>
      have hc : ¬ c = '|' := fun hc => h (hc ▸ List.mem_cons_self c rest)
      have hr := ih fun hm => h (List.mem_cons_of_mem c hm)
      simp only [splitOnPipe, hr]
      simp [hc]

theorem splitOnPipe_append (l1 l2 : GoString) (h : '|' ∉ l1) :
    splitOnPipe (l1 ++ '|' :: l2) = l1 :: splitOnPipe l2 := by
  induction l1 with
  | nil =>
      simp only [List.nil_append, splitOnPipe]
      cases hs : splitOnPipe l2 with
      | nil => exact absurd hs (splitOnPipe_ne_nil l2)
      | cons p ps => simp
  | cons c rest ih =>
      have hc : ¬ c = '|' := fun hcp => h (hcp ▸ List.mem_cons_self c rest)
      have hr := ih fun hm => h (List.mem_cons_of_mem c hm)
      simp only [List.cons_append, splitOnPipe, List.append_eq]
      rw [hr]
      simp [hc]

/-- C9 counterexample: the well-typed amount `(VAC, −5)` encodes to
`"VAC-5"`, which `ParseAmount` rejects (`\d+` matches no minus sign), so
decoding the canonical encoding does not recover the value. -/
theorem parseAmount_negative_cex :
    ParseAmount (Amount.string { Currency := "VAC".toList, Value := -5 }) = none ∧
    ParseAmount (Amount.string { Currency := "VAC".toList, Value := -5 }) ≠
      some { Currency := "VAC".toList, Value := -5 } := by decide

/-- C9 (amended): the string-level codec round-trips on well-formed values:
an `Amount` whose currency is a nonempty all-uppercase string and whose
value is a nonnegative int64 satisfies `ParseAmount (a.String()) = a`; a
`BuyerOrSeller` user with pipe-free id and name, and a `Support` user with
a pipe-free id and empty name, satisfy `unmarshal (marshal u) = u`
(negative amounts, pipes, and other type tags break the round-trip, see
the counterexample). -/
theorem codec_roundtrip :
    (∀ a : Amount, a.Currency ≠ [] → (∀ c ∈ a.Currency, isUpperAZ c = true) →
      0 ≤ a.Value → a.Value ≤ 2 ^ 63 - 1 → ParseAmount a.string = some a) ∧
    (∀ u : User, '|' ∉ u.ID →
      (u.Typ = "BuyerOrSeller".toList → '|' ∉ u.Name →
        User.unmarshal u.marshal = some u) ∧
      (u.Typ = "Support".toList → u.Name = [] →
        User.unmarshal u.marshal = some u)) := by
  constructor
  · rintro ⟨cur, val⟩ hc1 hc2 hv1 hv2
    have hval : intChars val = natDigits val.toNat := by
      simp [intChars, not_lt.mpr hv1]
    have hnd := natDigits_mem val.toNat
    have hsplit := takeWhile_append_of_all isUpperAZ cur (natDigits val.toNat) hc2
      (fun c l3 hl => by
        have hm : c ∈ natDigits val.toNat := by rw [hl]; exact List.mem_cons_self c l3
        exact (hnd c hm).2)
    have hne : cur ++ natDigits val.toNat ≠ [] := fun hcontra =>
      hc1 (List.append_eq_nil.mp hcontra).1
    have hall : (natDigits val.toNat).all isDigitChar = true :=
      List.all_eq_true.mpr fun c hc => (hnd c hc).1
    have hcast : (val.toNat : Int) = val := Int.toNat_of_nonneg hv1
    show ParseAmount (cur ++ intChars val) = some ⟨cur, val⟩
    rw [hval]
    simp only [ParseAmount]
    rw [if_neg hne]
    simp only [hsplit.1, hsplit.2]
    have hcond : ¬ (cur = [] ∨ natDigits val.toNat = [] ∨
        ¬ (natDigits val.toNat).all isDigitChar = true) := by
      push_neg
      exact ⟨hc1, natDigits_ne_nil val.toNat, hall⟩
    rw [if_neg hcond]
    rw [digitsVal_natDigits, hcast]
    rw [if_neg (not_lt.mpr hv2)]
  · rintro ⟨id, name, typ⟩ hid
    have hid2 : '|' ∉ id := hid
    constructor
    · rintro rfl hname
      have hname2 : '|' ∉ name := hname
      have hlit1 : ("BuyerOrSeller|".toList : GoString) = "BuyerOrSeller".toList ++ ['|'] := by
        decide
      have hlit2 : ("|".toList : GoString) = ['|'] := by decide
      have hmar : User.marshal ⟨id, name, "BuyerOrSeller".toList⟩ =
          "BuyerOrSeller".toList ++ '|' :: (id ++ '|' :: name) := by
        unfold User.marshal
        rw [if_pos rfl, hlit1, hlit2]
        simp [List.append_assoc]
      rw [hmar]
      unfold User.unmarshal
      rw [splitOnPipe_append ("BuyerOrSeller".toList) (id ++ '|' :: name) (by decide),
        splitOnPipe_append id name hid2, splitOnPipe_no_pipe name hname2]
      simp
    · rintro rfl hname
      have hname2 : name = [] := hname
      subst hname2
      have hneq : ¬ (("Support".toList : GoString) = "BuyerOrSeller".toList) := by decide
      have hmar : User.marshal ⟨id, [], "Support".toList⟩ =
          "Support".toList ++ '|' :: id := by
        unfold User.marshal
        rw [if_neg hneq]
        rfl
      rw [hmar]
      unfold User.unmarshal
      rw [splitOnPipe_append ("Support".toList) id (by decide),
        splitOnPipe_no_pipe id hid2]
      simp [hneq]

/-- Witness for `codec_roundtrip` at `VAC10` and a concrete buyer. -/
theorem codec_roundtrip_witness :
    ParseAmount (Amount.string { Currency := "VAC".toList, Value := 10 }) =
      some { Currency := "VAC".toList, Value := 10 } ∧
    User.unmarshal buyer1.marshal = some buyer1 :=
  ⟨codec_roundtrip.1 { Currency := "VAC".toList, Value := 10 } (by decide) (by decide)
      (by decide) (by decide),
    (codec_roundtrip.2 buyer1 (by decide)).1 (by decide) (by decide)⟩
